import Mathlib

/-!
Verification of the metadata-resolution, planning and execution engine of
sd_to_c_sort. Strings are modelled as lists of characters; file-system state
as an association list from paths to file data; each operation below is a
direct translation of the corresponding function of src/sd_to_c_sort.py.
-/

namespace SdToC

/-- Characters treated as whitespace by Python str.strip and str.split
(ASCII whitespace: space, tab, newline, carriage return, vertical tab,
form feed). -/
def pyWS (c : Char) : Bool :=
  c = ' ' || c = '\t' || c = '\n' || c = '\r' || c = '\x0b' || c = '\x0c'

/-- The allowed punctuation set of sanitize: the characters of the source
string literal, which are space, dot, underscore, hyphen, parentheses, plus,
square brackets, hash and forward slash. -/
def safePunct : List Char := [' ', '.', '_', '-', '(', ')', '+', '[', ']', '#', '/']

/-- The alphanumeric test of the sanitize loop (ch.isalnum in the source;
modelled on the ASCII range, which is what every claim about sanitize
exercises). -/
def pyIsAlnum (c : Char) : Bool := c.isAlphanum

/-- A character that sanitize may keep: alphanumeric or allowed punctuation. -/
def isSafeChar (c : Char) : Bool := pyIsAlnum c || safePunct.contains c

/-- One character of the sanitize loop: keep safe characters, replace every
other character with a space. -/
def cleanChar (c : Char) : Char :=
  if isSafeChar c then c else ' '

/-- Python str.strip: drop whitespace from both ends. -/
def pyStrip (l : List Char) : List Char :=
  ((l.dropWhile pyWS).reverse.dropWhile pyWS).reverse

/-- Python str.split with no separator: maximal whitespace-free runs, with
empty runs discarded. -/
def pyWords (l : List Char) : List (List Char) :=
  (List.splitOnP pyWS l).filter (fun w => !w.isEmpty)

/-- Python " ".join: words joined by single spaces. -/
def joinWords : List (List Char) → List Char
  | [] => []
  | [w] => w
  | w :: ws => w ++ ' ' :: joinWords ws

/-- The " ".join(x.split()) step of sanitize: collapse whitespace runs to
single spaces, dropping leading and trailing whitespace. -/
def collapseWS (l : List Char) : List Char :=
  joinWords (pyWords l)

/-- The fixed placeholder returned by sanitize when the result is empty. -/
def unknownName : List Char := ['U', 'n', 'k', 'n', 'o', 'w', 'n']

/-- sanitize from the source: return the placeholder on empty input, else
replace unsafe characters of the stripped input by spaces, collapse
whitespace, truncate to 120 characters, and fall back to the placeholder if
the result is empty. -/
def sanitize (name : List Char) : List Char :=
  if name.isEmpty then unknownName
  else
    let s := collapseWS ((pyStrip name).map cleanChar)
    let trimmed := s.take 120
    if trimmed.isEmpty then unknownName else trimmed

/-! Character-level facts about sanitize. -/

theorem cleanChar_safe (c : Char) : isSafeChar (cleanChar c) = true := by
  unfold cleanChar
  split
  · assumption
  · decide

theorem isSafeChar_bounds {c : Char} (h : isSafeChar c = true) :
    c ≠ '\\' ∧ 32 ≤ c.toNat ∧ c.toNat ≠ 127 := by
  have hb : 32 ≤ c.toNat ∧ c.toNat ≤ 122 := by
    unfold isSafeChar pyIsAlnum at h
    simp only [Bool.or_eq_true] at h
    rcases h with halnum | hpunct
    · simp [Char.isAlphanum, Char.isAlpha, Char.isUpper, Char.isLower,
        Char.isDigit] at halnum
      rcases halnum with (⟨h1, h2⟩ | ⟨h1, h2⟩) | ⟨h1, h2⟩ <;>
        exact ⟨Nat.le_trans (by norm_num) h1, Nat.le_trans h2 (by norm_num)⟩
    · have hm : c ∈ safePunct := List.mem_of_elem_eq_true hpunct
      fin_cases hm <;> exact ⟨by decide, by decide⟩
  refine ⟨?_, hb.1, by omega⟩
  intro hc
  subst hc
  exact absurd h (by decide)

/-- Every element of a chunk produced by splitOnP fails the predicate and
comes from the input list. -/
theorem mem_of_mem_splitOnP {α : Type} (p : α → Bool) :
    ∀ (l : List α) (w : List α), w ∈ List.splitOnP p l →
      ∀ c ∈ w, p c = false ∧ c ∈ l := by
  intro l
  induction l with
  | nil =>
    intro w hw c hc
    simp [List.splitOnP_nil] at hw
    subst hw
    simp at hc
  | cons a t ih =>
    intro w hw c hc
    rw [List.splitOnP_cons] at hw
    by_cases ha : p a
    · simp [ha] at hw
      rcases hw with hw | hw
      · subst hw; simp at hc
      · have := ih w hw c hc
        exact ⟨this.1, List.mem_cons_of_mem a this.2⟩
    · simp [ha] at hw
      obtain ⟨h0, rest, hsplit⟩ :
          ∃ h0 rest, List.splitOnP p t = h0 :: rest := by
        rcases hs : List.splitOnP p t with _ | ⟨h0, rest⟩
        · exact absurd hs (List.splitOnP_ne_nil p t)
        · exact ⟨h0, rest, rfl⟩
      rw [hsplit, List.modifyHead_cons] at hw
      rcases List.mem_cons.mp hw with hw | hw
      · subst hw
        rcases List.mem_cons.mp hc with hce | hcm
        · refine ⟨?_, ?_⟩
          · rw [hce]; exact Bool.of_not_eq_true ha
          · rw [hce]; exact List.mem_cons_self a t
        · have := ih h0 (by rw [hsplit]; exact List.mem_cons_self h0 rest) c hcm
          exact ⟨this.1, List.mem_cons_of_mem a this.2⟩
      · have := ih w (by rw [hsplit]; exact List.mem_cons_of_mem h0 hw) c hc
        exact ⟨this.1, List.mem_cons_of_mem a this.2⟩

/-- Every word returned by pyWords is nonempty, whitespace-free, and made of
characters of the input. -/
theorem mem_pyWords {l w : List Char} (hw : w ∈ pyWords l) :
    w ≠ [] ∧ ∀ c ∈ w, pyWS c = false ∧ c ∈ l := by
  unfold pyWords at hw
  have hmem := List.mem_of_mem_filter hw
  have hne : w ≠ [] := by
    have := List.of_mem_filter hw
    simpa [List.isEmpty_iff] using this
  exact ⟨hne, fun c hc => mem_of_mem_splitOnP pyWS l w hmem c hc⟩

theorem joinWords_cons_cons (w x : List Char) (ws : List (List Char)) :
    joinWords (w :: x :: ws) = w ++ ' ' :: joinWords (x :: ws) := rfl

/-- Every character of a joined word list is a space or belongs to a word. -/
theorem mem_joinWords {ws : List (List Char)} {c : Char}
    (hc : c ∈ joinWords ws) : c = ' ' ∨ ∃ w ∈ ws, c ∈ w := by
  induction ws with
  | nil => simp [joinWords] at hc
  | cons w tail ih =>
    cases tail with
    | nil =>
      right
      exact ⟨w, List.mem_cons_self w [], by simpa [joinWords] using hc⟩
    | cons x rest =>
      rw [joinWords_cons_cons] at hc
      rcases List.mem_append.mp hc with hcw | hcr
      · exact Or.inr ⟨w, List.mem_cons_self w _, hcw⟩
      · rcases List.mem_cons.mp hcr with hce | hcm
        · exact Or.inl hce
        · rcases ih hcm with hsp | ⟨u, hu, hcu⟩
          · exact Or.inl hsp
          · exact Or.inr ⟨u, List.mem_cons_of_mem w hu, hcu⟩

/-- Every character of a sanitize result is a safe character. -/
theorem sanitize_safe {name : List Char} {c : Char} (hc : c ∈ sanitize name) :
    isSafeChar c = true := by
  unfold sanitize at hc
  split at hc
  · fin_cases hc <;> decide
  · simp only [] at hc
    split at hc
    · fin_cases hc <;> decide
    · have hcol : c ∈ collapseWS ((pyStrip name).map cleanChar) :=
        List.take_subset 120 _ hc
      unfold collapseWS at hcol
      rcases mem_joinWords hcol with hsp | ⟨w, hw, hcw⟩
      · subst hsp; decide
      · have hm := (mem_pyWords hw).2 c hcw
        rcases List.mem_map.mp hm.2 with ⟨d, _, hd⟩
        rw [← hd]
        exact cleanChar_safe d

/-- C1: the claim states sanitize output never contains a path separator;
the allowed punctuation set of the source contains the forward slash, so a
slash survives sanitization. -/
theorem C1_counterexample : '/' ∈ sanitize ['a', '/', 'b'] := by decide

/-- C1 (amended): every character of sanitize(x) is alphanumeric or in the
allowed punctuation set; hence the output contains no backslash and no
control character (code point below 32, or 127), but a forward slash may
survive, since the slash itself is in the allowed punctuation set. -/
theorem C1_sanitize_no_backslash_no_control {name : List Char} {c : Char}
    (hc : c ∈ sanitize name) :
    c ≠ '\\' ∧ 32 ≤ c.toNat ∧ c.toNat ≠ 127 :=
  isSafeChar_bounds (sanitize_safe hc)

theorem C1_witness :
    'U' ∈ sanitize [] ∧ ('U' ≠ '\\' ∧ 32 ≤ 'U'.toNat ∧ 'U'.toNat ≠ 127) :=
  ⟨by decide, @C1_sanitize_no_backslash_no_control [] 'U' (by decide)⟩

/-! Idempotence analysis of sanitize. -/

theorem splitOnP_append_of_none {α : Type} (p : α → Bool) (w l : List α)
    (hw : ∀ c ∈ w, p c = false) :
    List.splitOnP p (w ++ l) = (List.splitOnP p l).modifyHead (w ++ ·) := by
  induction w with
  | nil =>
    rcases hs : List.splitOnP p l with _ | ⟨h0, rest⟩
    · exact absurd hs (List.splitOnP_ne_nil p l)
    · simp [hs, List.modifyHead_cons]
  | cons a w ih =>
    have ha : p a = false := hw a (List.mem_cons_self a w)
    rw [List.cons_append, List.splitOnP_cons]
    simp only [ha, Bool.false_eq_true, if_false]
    rw [ih (fun c hc => hw c (List.mem_cons_of_mem a hc))]
    rcases hs : List.splitOnP p l with _ | ⟨h0, rest⟩
    · exact absurd hs (List.splitOnP_ne_nil p l)
    · simp [List.modifyHead_cons]

/-- Splitting a join of nonempty whitespace-free words recovers the words. -/
theorem pyWords_joinWords (ws : List (List Char))
    (h : ∀ w ∈ ws, w ≠ [] ∧ ∀ c ∈ w, pyWS c = false) :
    pyWords (joinWords ws) = ws := by
  induction ws with
  | nil => rfl
  | cons w tail ih =>
    have hw := h w (List.mem_cons_self w tail)
    cases tail with
    | nil =>
      show pyWords (joinWords [w]) = [w]
      have hsplit : List.splitOnP pyWS w = [w] := by
        have := splitOnP_append_of_none pyWS w [] hw.2
        simpa [List.splitOnP_nil] using this
      unfold pyWords
      show (List.splitOnP pyWS (joinWords [w])).filter (fun u => !u.isEmpty) = [w]
      have hjw : joinWords [w] = w := rfl
      rw [hjw, hsplit]
      have hwe : w.isEmpty = false := by simp [List.isEmpty_iff, hw.1]
      simp [List.filter, hwe]
    | cons x rest =>
      rw [joinWords_cons_cons]
      unfold pyWords
      rw [splitOnP_append_of_none pyWS w _ hw.2, List.splitOnP_cons]
      have hsp : pyWS ' ' = true := by decide
      simp only [hsp, if_true, List.modifyHead_cons, List.append_nil]
      have htail := ih (fun u hu => h u (List.mem_cons_of_mem w hu))
      unfold pyWords at htail
      have hwe : w.isEmpty = false := by simp [List.isEmpty_iff, hw.1]
      simp [List.filter, hwe, htail]

theorem take_one_append {α : Type} (a b : List α) (ha : a ≠ []) :
    (a ++ b).take 1 = a.take 1 := by
  cases a with
  | nil => exact absurd rfl ha
  | cons x t => simp

theorem joinWords_take_one (w : List Char) (ws : List (List Char))
    (hw : w ≠ []) : (joinWords (w :: ws)).take 1 = w.take 1 := by
  cases ws with
  | nil => rfl
  | cons x rest => rw [joinWords_cons_cons]; exact take_one_append _ _ hw

theorem joinWords_ne_nil (w : List Char) (ws : List (List Char))
    (hw : w ≠ []) : joinWords (w :: ws) ≠ [] := by
  cases ws with
  | nil => simpa [joinWords] using hw
  | cons x rest => rw [joinWords_cons_cons]; simp [hw]

/-- The boundary character at the end of a join comes from one of the words. -/
theorem joinWords_reverse_take_one (ws : List (List Char))
    (h : ∀ w ∈ ws, w ≠ []) (hne : ws ≠ []) :
    ∃ w ∈ ws, (joinWords ws).reverse.take 1 = w.reverse.take 1 := by
  induction ws with
  | nil => exact absurd rfl hne
  | cons w tail ih =>
    cases tail with
    | nil => exact ⟨w, List.mem_cons_self w [], rfl⟩
    | cons x rest =>
      have hx : x ≠ [] := h x (List.mem_cons_of_mem w (List.mem_cons_self x rest))
      have hjne : joinWords (x :: rest) ≠ [] := joinWords_ne_nil x rest hx
      obtain ⟨u, hu, hequ⟩ :=
        ih (fun v hv => h v (List.mem_cons_of_mem w hv)) (by simp)
      refine ⟨u, List.mem_cons_of_mem w hu, ?_⟩
      rw [joinWords_cons_cons, List.reverse_append, List.reverse_cons]
      rw [take_one_append _ _ (by simp [hjne]), take_one_append _ _ (by simp [hjne])]
      exact hequ

theorem pyStrip_eq_self {l : List Char}
    (h1 : ∀ c ∈ l.take 1, pyWS c = false)
    (h2 : ∀ c ∈ l.reverse.take 1, pyWS c = false) :
    pyStrip l = l := by
  unfold pyStrip
  have hd : l.dropWhile pyWS = l := by
    cases l with
    | nil => rfl
    | cons a t =>
      rw [List.dropWhile_cons]
      simp [h1 a (by simp)]
  rw [hd]
  have hr : l.reverse.dropWhile pyWS = l.reverse := by
    rcases hrev : l.reverse with _ | ⟨a, t⟩
    · rfl
    · rw [List.dropWhile_cons]
      simp [h2 a (by rw [hrev]; simp)]
  rw [hr, List.reverse_reverse]

theorem map_cleanChar_of_safe {l : List Char}
    (h : ∀ c ∈ l, isSafeChar c = true) : l.map cleanChar = l := by
  induction l with
  | nil => rfl
  | cons a t ih =>
    have ha : cleanChar a = a := by
      unfold cleanChar
      rw [h a (List.mem_cons_self a t)]
      simp
    simp [ha, ih (fun c hc => h c (List.mem_cons_of_mem a hc))]

/-- sanitize fixes a join of nonempty, whitespace-free, safe words of total
length at most 120. -/
theorem sanitize_fixes_canonical (ws : List (List Char))
    (h : ∀ w ∈ ws, w ≠ [] ∧ ∀ c ∈ w, pyWS c = false ∧ isSafeChar c = true)
    (hne : ws ≠ []) (hlen : (joinWords ws).length ≤ 120) :
    sanitize (joinWords ws) = joinWords ws := by
  obtain ⟨w0, tail, rfl⟩ : ∃ w0 tail, ws = w0 :: tail := by
    cases ws with
    | nil => exact absurd rfl hne
    | cons w0 tail => exact ⟨w0, tail, rfl⟩
  have hw0 : w0 ≠ [] := (h w0 (List.mem_cons_self w0 tail)).1
  have hjne : joinWords (w0 :: tail) ≠ [] := joinWords_ne_nil w0 tail hw0
  have hstrip : pyStrip (joinWords (w0 :: tail)) = joinWords (w0 :: tail) := by
    apply pyStrip_eq_self
    · intro c hc
      rw [joinWords_take_one w0 tail hw0] at hc
      exact ((h w0 (List.mem_cons_self w0 tail)).2 c (List.take_subset 1 w0 hc)).1
    · intro c hc
      obtain ⟨w, hwmem, heq⟩ :=
        joinWords_reverse_take_one (w0 :: tail) (fun w hw => (h w hw).1) (by simp)
      rw [heq] at hc
      have hcw : c ∈ w :=
        List.mem_reverse.mp (List.take_subset 1 w.reverse hc)
      exact ((h w hwmem).2 c hcw).1
  have hmap : (joinWords (w0 :: tail)).map cleanChar = joinWords (w0 :: tail) := by
    apply map_cleanChar_of_safe
    intro c hc
    rcases mem_joinWords hc with rfl | ⟨w, hw, hcw⟩
    · decide
    · exact ((h w hw).2 c hcw).2
  have hwords :
      pyWords (joinWords (w0 :: tail)) = w0 :: tail :=
    pyWords_joinWords _ (fun w hw => ⟨(h w hw).1, fun c hc => ((h w hw).2 c hc).1⟩)
  simp only [sanitize]
  rw [if_neg (by simp [List.isEmpty_iff, hjne])]
  unfold collapseWS
  rw [hstrip, hmap, hwords, List.take_of_length_le hlen]
  rw [if_neg (by simp [List.isEmpty_iff, hjne])]

/-- C4: sanitize is not idempotent as claimed: when the 120-character cut
lands just after a word it leaves a trailing space that a second application
removes. Input: 119 letters, a space, one more letter. -/
theorem C4_counterexample :
    sanitize (sanitize (List.replicate 119 'a' ++ [' ', 'b'])) ≠
      sanitize (List.replicate 119 'a' ++ [' ', 'b']) := by decide

/-- C4 (amended): sanitize is idempotent on every input whose collapsed
sanitized form fits inside the 120-character truncation limit; only the
truncation step can break idempotence. -/
theorem C4_sanitize_idem_of_no_truncation (x : List Char)
    (h : (collapseWS ((pyStrip x).map cleanChar)).length ≤ 120) :
    sanitize (sanitize x) = sanitize x := by
  by_cases hx : x.isEmpty
  · have hun : sanitize x = unknownName := by
      unfold sanitize
      rw [if_pos hx]
    rw [hun]
    decide
  · by_cases hs : (collapseWS ((pyStrip x).map cleanChar)).isEmpty
    · have hun : sanitize x = unknownName := by
        simp only [sanitize]
        rw [if_neg hx, if_pos (by rw [List.isEmpty_iff.mp hs]; rfl)]
      rw [hun]
      decide
    · have hx1 : sanitize x = collapseWS ((pyStrip x).map cleanChar) := by
        simp only [sanitize]
        rw [if_neg hx, List.take_of_length_le h, if_neg hs]
      rw [hx1]
      show sanitize (joinWords (pyWords ((pyStrip x).map cleanChar))) =
        joinWords (pyWords ((pyStrip x).map cleanChar))
      apply sanitize_fixes_canonical
      · intro w hw
        have hm := mem_pyWords hw
        refine ⟨hm.1, fun c hc => ⟨(hm.2 c hc).1, ?_⟩⟩
        rcases List.mem_map.mp (hm.2 c hc).2 with ⟨d, _, hd⟩
        rw [← hd]
        exact cleanChar_safe d
      · intro hnil
        apply hs
        show (joinWords (pyWords ((pyStrip x).map cleanChar))).isEmpty = true
        rw [hnil]
        rfl
      · exact h

theorem C4_witness :
    (collapseWS ((pyStrip ['a', 'b']).map cleanChar)).length ≤ 120 ∧
      sanitize (sanitize ['a', 'b']) = sanitize ['a', 'b'] :=
  ⟨by decide, C4_sanitize_idem_of_no_truncation ['a', 'b'] (by decide)⟩

/-! Metadata extraction (extract_meta and its strategy merge). -/

/-- Capture timestamps, modelled opaquely as tokens: no claim depends on the
internal structure of a datetime value. -/
abbrev DateTime := Nat

/-- A path: a list of segments. -/
abbrev Path := List (List Char)

/-- Output of one extraction strategy: optional datetime, camera model and
lens model, exactly the triple each exif_from_x helper returns (each helper
catches its own failures and returns an all-none triple, so strategy results
are plain data here). -/
structure StratOut where
  dt : Option DateTime
  cam : Option (List Char)
  lens : Option (List Char)
deriving DecidableEq

/-- Python truthiness of an optional string: None and the empty string are
falsy. -/
def truthyStr : Option (List Char) → Bool
  | none => false
  | some s => !s.isEmpty

/-- Python truthiness of an optional datetime: datetime values are always
truthy. -/
def truthyDT : Option DateTime → Bool
  | none => false
  | some _ => true

/-- Python x or default for an optional string. -/
def orDefault (a : Option (List Char)) (dflt : List Char) : List Char :=
  match a with
  | none => dflt
  | some s => if s.isEmpty then dflt else s

/-- The timestamp merge of extract_meta: start from None, take the pillow
value if truthy, then fill from exifread only if still empty, then from
exiftool only if still empty. -/
def mergeDT (d1 d2 d3 : Option DateTime) : Option DateTime :=
  let dto : Option DateTime := none
  let dto := if truthyDT d1 then d1 else dto
  let dto := if !truthyDT dto && truthyDT d2 then d2 else dto
  if !truthyDT dto && truthyDT d3 then d3 else dto

/-- The camera and lens merge of extract_meta: same first-truthy-wins fold
over the three strategies in order. -/
def mergeStr (c1 c2 c3 : Option (List Char)) : Option (List Char) :=
  let v : Option (List Char) := none
  let v := if truthyStr c1 then c1 else v
  let v := if !truthyStr v && truthyStr c2 then c2 else v
  if !truthyStr v && truthyStr c3 then c3 else v

/-- RAW_EXT of the source. -/
def rawExt : List (List Char) :=
  [['.', 'a', 'r', 'w'], ['.', 'c', 'r', '2'], ['.', 'c', 'r', '3'],
   ['.', 'n', 'e', 'f'], ['.', 'o', 'r', 'f'], ['.', 'r', 'w', '2'],
   ['.', 'r', 'a', 'f'], ['.', 'd', 'n', 'g'], ['.', 's', 'r', 'w'],
   ['.', 'p', 'e', 'f'], ['.', 't', 'i', 'f'], ['.', 't', 'i', 'f', 'f']]

/-- PROC_EXT of the source. -/
def procExt : List (List Char) :=
  [['.', 'j', 'p', 'g'], ['.', 'j', 'p', 'e', 'g'], ['.', 'h', 'e', 'i', 'c'],
   ['.', 'h', 'e', 'i', 'f'], ['.', 'p', 'n', 'g']]

/-- The three-way file-kind classification of extract_meta. -/
def kindFor (ext : List Char) : List Char :=
  if rawExt.contains ext then ['r', 'a', 'w']
  else if procExt.contains ext then ['j', 'p', 'g']
  else ['o', 't', 'h', 'e', 'r']

/-- The fixed camera placeholder of extract_meta. -/
def unknownCamera : List Char :=
  ['U', 'n', 'k', 'n', 'o', 'w', 'n', ' ', 'C', 'a', 'm', 'e', 'r', 'a']

/-- The fixed lens placeholder of extract_meta. -/
def unknownLens : List Char :=
  ['U', 'n', 'k', 'n', 'o', 'w', 'n', ' ', 'L', 'e', 'n', 's']

/-- The metadata record extract_meta builds for one file. -/
structure Meta where
  path : Path
  dt : DateTime
  year : List Char
  month : List Char
  date : List Char
  camera : List Char
  lens : List Char
  kind : List Char
deriving DecidableEq

/-- extract_meta from the source. The three strategy results, the file
modification time (none when stat raises) and the current time are inputs;
the strftime projections of the resolved timestamp are abstract formatting
functions, since no claim depends on date formatting. -/
def extract_meta (fmtY fmtM fmtD : DateTime → List Char)
    (pillow exifread exiftool : StratOut)
    (mtime : Option DateTime) (now : DateTime)
    (path : Path) (ext : List Char) : Meta :=
  let dto := mergeDT pillow.dt exifread.dt exiftool.dt
  let cam := mergeStr pillow.cam exifread.cam exiftool.cam
  let lens := mergeStr pillow.lens exifread.lens exiftool.lens
  let dt :=
    match dto with
    | some d => d
    | none =>
      match mtime with
      | some d => d
      | none => now
  { path := path
    dt := dt
    year := fmtY dt
    month := fmtM dt
    date := fmtD dt
    camera := sanitize (orDefault cam unknownCamera)
    lens := sanitize (orDefault lens unknownLens)
    kind := kindFor ext }

/-- Specification-side reading of the precedence rule: the first truthy
string in strategy order. -/
def firstTruthyStr : List (Option (List Char)) → Option (List Char)
  | [] => none
  | a :: rest => if truthyStr a then a else firstTruthyStr rest

/-- Specification-side reading of the precedence rule: the first truthy
datetime in strategy order. -/
def firstTruthyDT : List (Option DateTime) → Option DateTime
  | [] => none
  | a :: rest => if truthyDT a then a else firstTruthyDT rest

theorem truthyStr_none : truthyStr none = false := rfl

theorem truthyDT_none : truthyDT none = false := rfl

theorem mergeStr_eq_firstTruthy (c1 c2 c3 : Option (List Char)) :
    mergeStr c1 c2 c3 = firstTruthyStr [c1, c2, c3] := by
  cases h1 : truthyStr c1 <;> cases h2 : truthyStr c2 <;>
    cases h3 : truthyStr c3 <;>
      simp [mergeStr, firstTruthyStr, truthyStr_none, h1, h2, h3]

theorem mergeDT_eq_firstTruthy (d1 d2 d3 : Option DateTime) :
    mergeDT d1 d2 d3 = firstTruthyDT [d1, d2, d3] := by
  cases h1 : truthyDT d1 <;> cases h2 : truthyDT d2 <;>
    cases h3 : truthyDT d3 <;>
      simp [mergeDT, firstTruthyDT, truthyDT_none, h1, h2, h3]

/-- C5: for each of timestamp, camera and lens independently, the merge of
extract_meta keeps the first non-empty value across the strategies in the
fixed order pillow, exifread, exiftool — a later strategy never overwrites an
earlier value — and the resolved record stores the sanitized first camera and
lens values, so those fields do not depend on lower-precedence strategies. -/
theorem C5_first_nonempty_wins (fmtY fmtM fmtD : DateTime → List Char)
    (p e t : StratOut) (mtime : Option DateTime) (now : DateTime)
    (path : Path) (ext : List Char) :
    mergeDT p.dt e.dt t.dt = firstTruthyDT [p.dt, e.dt, t.dt] ∧
    mergeStr p.cam e.cam t.cam = firstTruthyStr [p.cam, e.cam, t.cam] ∧
    mergeStr p.lens e.lens t.lens = firstTruthyStr [p.lens, e.lens, t.lens] ∧
    (extract_meta fmtY fmtM fmtD p e t mtime now path ext).camera =
      sanitize (orDefault (firstTruthyStr [p.cam, e.cam, t.cam]) unknownCamera) ∧
    (extract_meta fmtY fmtM fmtD p e t mtime now path ext).lens =
      sanitize (orDefault (firstTruthyStr [p.lens, e.lens, t.lens]) unknownLens) := by
  refine ⟨mergeDT_eq_firstTruthy p.dt e.dt t.dt,
    mergeStr_eq_firstTruthy p.cam e.cam t.cam,
    mergeStr_eq_firstTruthy p.lens e.lens t.lens, ?_, ?_⟩ <;>
    simp [extract_meta, mergeStr_eq_firstTruthy]

theorem sanitize_ne_nil (name : List Char) : sanitize name ≠ [] := by
  unfold sanitize
  split
  · decide
  · simp only []
    split
    · decide
    · next h => exact fun hnil => h (by rw [hnil]; rfl)

theorem orDefault_of_not_truthy {a : Option (List Char)} {dflt : List Char}
    (h : truthyStr a = false) : orDefault a dflt = dflt := by
  cases a with
  | none => rfl
  | some s =>
    unfold truthyStr at h
    unfold orDefault
    simp at h
    simp [h]

/-- C6: metadata resolution is total: the record's camera and lens are always
nonempty sanitized strings, equal to the fixed placeholders when every
strategy leaves the field empty, and the timestamp is always present,
falling back to the modification time and then to the current time. -/
theorem C6_extract_meta_total (fmtY fmtM fmtD : DateTime → List Char)
    (p e t : StratOut) (mtime : Option DateTime) (now : DateTime)
    (path : Path) (ext : List Char) :
    (extract_meta fmtY fmtM fmtD p e t mtime now path ext).camera ≠ [] ∧
    (extract_meta fmtY fmtM fmtD p e t mtime now path ext).lens ≠ [] ∧
    (truthyStr (mergeStr p.cam e.cam t.cam) = false →
      (extract_meta fmtY fmtM fmtD p e t mtime now path ext).camera =
        unknownCamera) ∧
    (truthyStr (mergeStr p.lens e.lens t.lens) = false →
      (extract_meta fmtY fmtM fmtD p e t mtime now path ext).lens =
        unknownLens) ∧
    (∀ d, mergeDT p.dt e.dt t.dt = some d →
      (extract_meta fmtY fmtM fmtD p e t mtime now path ext).dt = d) ∧
    (∀ d, mergeDT p.dt e.dt t.dt = none → mtime = some d →
      (extract_meta fmtY fmtM fmtD p e t mtime now path ext).dt = d) ∧
    (mergeDT p.dt e.dt t.dt = none → mtime = none →
      (extract_meta fmtY fmtM fmtD p e t mtime now path ext).dt = now) := by
  refine ⟨?_, ?_, ?_, ?_, ?_, ?_, ?_⟩
  · exact sanitize_ne_nil _
  · exact sanitize_ne_nil _
  · intro h
    show sanitize (orDefault (mergeStr p.cam e.cam t.cam) unknownCamera) = _
    rw [orDefault_of_not_truthy h]
    decide
  · intro h
    show sanitize (orDefault (mergeStr p.lens e.lens t.lens) unknownLens) = _
    rw [orDefault_of_not_truthy h]
    decide
  · intro d hd
    simp [extract_meta, hd]
  · intro d hd hm
    simp [extract_meta, hd, hm]
  · intro hd hm
    simp [extract_meta, hd, hm]

theorem C6_witness :
    (truthyStr (mergeStr none none none) = false ∧
      (extract_meta (fun _ => []) (fun _ => []) (fun _ => [])
        ⟨none, none, none⟩ ⟨none, none, none⟩ ⟨none, none, none⟩
        none 7 [] []).camera = unknownCamera) ∧
    (mergeDT none none none = none ∧
      (extract_meta (fun _ => []) (fun _ => []) (fun _ => [])
        ⟨none, none, none⟩ ⟨none, none, none⟩ ⟨none, none, none⟩
        none 7 [] []).dt = 7) :=
  ⟨⟨by decide, (C6_extract_meta_total (fun _ => []) (fun _ => []) (fun _ => [])
      ⟨none, none, none⟩ ⟨none, none, none⟩ ⟨none, none, none⟩
      none 7 [] []).2.2.1 (by decide)⟩,
   ⟨by decide, (C6_extract_meta_total (fun _ => []) (fun _ => []) (fun _ => [])
      ⟨none, none, none⟩ ⟨none, none, none⟩ ⟨none, none, none⟩
      none 7 [] []).2.2.2.2.2.2 (by decide) rfl⟩⟩

/-! Destination planning (_target_dir_for and the scan_preview plan loop). -/

inductive GroupBy
  | camera
  | lens
deriving DecidableEq

inductive Hier
  | deviceFirst
  | dateFirst
deriving DecidableEq

inductive DupPolicy
  | rename
  | skipDup
  | ask
deriving DecidableEq

inductive FileAction
  | copy
  | move
deriving DecidableEq

/-- The configuration value object consumed by the core. -/
structure Config where
  groupBy : GroupBy
  hier : Hier
  splitKind : Bool
  action : FileAction
  skipHash : Bool
  policy : DupPolicy
  workers : Int
  destRoot : Path
deriving DecidableEq

/-- _target_dir_for from the source: group segment (camera or lens, passed
through sanitize again), three date levels in the configured hierarchy
order, and the optional kind segment. -/
def targetDirFor (cfg : Config) (m : Meta) : Path :=
  let group := if cfg.groupBy = GroupBy.camera then m.camera else m.lens
  let group := sanitize group
  let base :=
    if cfg.hier = Hier.deviceFirst then
      cfg.destRoot ++ [group, m.year, m.month, m.date]
    else
      cfg.destRoot ++ [m.year, m.month, m.date, group]
  if cfg.splitKind then base ++ [m.kind] else base

/-- plan.setdefault(out_dir, []).append(path): append to the bucket of the
key, creating the bucket at the end of the dict on first use. -/
def planAdd (plan : List (Path × List Path)) (k : Path) (p : Path) :
    List (Path × List Path) :=
  match plan with
  | [] => [(k, [p])]
  | (q, l) :: rest =>
    if q = k then (q, l ++ [p]) :: rest else (q, l) :: planAdd rest k p

/-- The plan-building loop of scan_preview. -/
def buildPlan (cfg : Config) (metas : List Meta) : List (Path × List Path) :=
  metas.foldl (fun plan m => planAdd plan (targetDirFor cfg m) m.path) []

/-- Occurrences of a path in a list of paths. -/
def countOcc (q : Path) : List Path → Nat
  | [] => 0
  | p :: rest => (if p = q then 1 else 0) + countOcc q rest

theorem countOcc_append (q : Path) (a b : List Path) :
    countOcc q (a ++ b) = countOcc q a + countOcc q b := by
  induction a with
  | nil => simp [countOcc]
  | cons p rest ih => simp [countOcc, ih]; omega

theorem countOcc_eq_zero_of_not_mem {q : Path} {l : List Path} (h : q ∉ l) :
    countOcc q l = 0 := by
  induction l with
  | nil => rfl
  | cons p rest ih =>
    have hp : p ≠ q := fun hh => h (hh ▸ List.mem_cons_self p rest)
    have hr : q ∉ rest := fun hh => h (List.mem_cons_of_mem p hh)
    simp [countOcc, hp, ih hr]

theorem countOcc_eq_one_of_nodup_mem {q : Path} {l : List Path}
    (hnd : l.Nodup) (hq : q ∈ l) : countOcc q l = 1 := by
  induction l with
  | nil => simp at hq
  | cons p rest ih =>
    rcases List.mem_cons.mp hq with rfl | hm
    · have hnm : q ∉ rest := (List.nodup_cons.mp hnd).1
      simp [countOcc, countOcc_eq_zero_of_not_mem hnm]
    · have hp : p ≠ q := fun hh =>
        (List.nodup_cons.mp hnd).1 (hh ▸ hm)
      simp [countOcc, hp, ih (List.nodup_cons.mp hnd).2 hm]

theorem planAdd_count (plan : List (Path × List Path)) (k p q : Path) :
    ((planAdd plan k p).map (fun b => countOcc q b.2)).sum =
      ((plan.map (fun b => countOcc q b.2)).sum) + (if p = q then 1 else 0) := by
  induction plan with
  | nil => simp [planAdd, countOcc]
  | cons b rest ih =>
    obtain ⟨bk, bl⟩ := b
    unfold planAdd
    by_cases hk : bk = k
    · simp only [hk, if_true, List.map_cons, List.sum_cons, countOcc_append]
      simp [countOcc]
      omega
    · simp only [hk, if_false, List.map_cons, List.sum_cons, ih]
      omega

theorem buildPlan_go_count (cfg : Config) (metas : List Meta)
    (plan : List (Path × List Path)) (q : Path) :
    ((metas.foldl (fun pl m => planAdd pl (targetDirFor cfg m) m.path) plan).map
        (fun b => countOcc q b.2)).sum =
      ((plan.map (fun b => countOcc q b.2)).sum) + countOcc q (metas.map Meta.path) := by
  induction metas generalizing plan with
  | nil => simp [countOcc]
  | cons m rest ih =>
    simp only [List.foldl_cons, List.map_cons]
    rw [ih, planAdd_count]
    simp [countOcc]
    omega

theorem le_listSum_of_mem {l : List Nat} {x : Nat} (h : x ∈ l) : x ≤ l.sum := by
  induction l with
  | nil => simp at h
  | cons a t ih =>
    rcases List.mem_cons.mp h with rfl | hm
    · simp
    · have := ih hm
      simp
      omega

theorem countP_pos_of_sum {l : List Nat} :
    (l.sum = 0 → l.countP (fun n => decide (0 < n)) = 0) ∧
    (l.sum = 1 → l.countP (fun n => decide (0 < n)) = 1) := by
  induction l with
  | nil => simp
  | cons a t ih =>
    constructor
    · intro h
      simp only [List.sum_cons] at h
      have ha : a = 0 := by omega
      have ht : t.sum = 0 := by omega
      simp [List.countP_cons, ha, ih.1 ht]
    · intro h
      simp only [List.sum_cons] at h
      rcases Nat.eq_zero_or_pos a with ha | ha
      · have ht : t.sum = 1 := by omega
        simp [List.countP_cons, ha, ih.2 ht]
      · have ha1 : a = 1 := by omega
        have ht : t.sum = 0 := by omega
        simp [List.countP_cons, ha1, ih.1 ht]

/-- C7: the placement plan partitions the input: for every path, the number
of occurrences across all buckets equals its number of occurrences among the
input records, and when input paths are distinct every input path lies in
exactly one bucket, exactly once. -/
theorem C7_plan_partitions (cfg : Config) (metas : List Meta) (q : Path) :
    ((buildPlan cfg metas).map (fun b => countOcc q b.2)).sum =
      countOcc q (metas.map Meta.path) ∧
    ((metas.map Meta.path).Nodup → q ∈ metas.map Meta.path →
      ((buildPlan cfg metas).countP (fun b => decide (0 < countOcc q b.2)) = 1 ∧
       ∀ b ∈ buildPlan cfg metas, 0 < countOcc q b.2 → countOcc q b.2 = 1)) := by
  have hsum :
      ((buildPlan cfg metas).map (fun b => countOcc q b.2)).sum =
        countOcc q (metas.map Meta.path) := by
    unfold buildPlan
    have := buildPlan_go_count cfg metas [] q
    simpa using this
  refine ⟨hsum, fun hnd hq => ?_⟩
  have hone : countOcc q (metas.map Meta.path) = 1 :=
    countOcc_eq_one_of_nodup_mem hnd hq
  have hsum1 :
      ((buildPlan cfg metas).map (fun b => countOcc q b.2)).sum = 1 := by
    rw [hsum, hone]
  constructor
  · have := (countP_pos_of_sum (l := (buildPlan cfg metas).map
      (fun b => countOcc q b.2))).2 hsum1
    rw [List.countP_map] at this
    simpa [Function.comp] using this
  · intro b hb hpos
    have hle : countOcc q b.2 ≤ 1 := by
      rw [← hsum1]
      exact le_listSum_of_mem (List.mem_map_of_mem _ hb)
    omega

theorem C7_witness :
    (([⟨[['a']], 0, [], [], [], [], [], []⟩,
       ⟨[['b']], 0, [], [], [], [], [], []⟩] : List Meta).map Meta.path).Nodup ∧
    [['a']] ∈ ([⟨[['a']], 0, [], [], [], [], [], []⟩,
       ⟨[['b']], 0, [], [], [], [], [], []⟩] : List Meta).map Meta.path ∧
    (buildPlan ⟨GroupBy.camera, Hier.deviceFirst, false, FileAction.copy,
        false, DupPolicy.rename, 1, []⟩
      [⟨[['a']], 0, [], [], [], [], [], []⟩,
       ⟨[['b']], 0, [], [], [], [], [], []⟩]).countP
        (fun b => decide (0 < countOcc [['a']] b.2)) = 1 :=
  ⟨by decide, by decide,
    ((C7_plan_partitions ⟨GroupBy.camera, Hier.deviceFirst, false,
        FileAction.copy, false, DupPolicy.rename, 1, []⟩
      [⟨[['a']], 0, [], [], [], [], [], []⟩,
       ⟨[['b']], 0, [], [], [], [], [], []⟩] [['a']]).2
      (by decide) (by decide)).1⟩

/-! Execution engine: file system model, file_hash, unique_dest and the
process closure of _worker_sort. -/

/-- Contents and readability of one file on disk: reading an unreadable file
raises in the source. -/
structure FileData where
  bytes : List Nat
  readable : Bool
deriving DecidableEq

/-- The file system: an association list from paths to file data. -/
abbrev Fs := List (Path × FileData)

def fsGet : Fs → Path → Option FileData
  | [], _ => none
  | (q, fd) :: rest, p => if q = p then some fd else fsGet rest p

def fsSet : Fs → Path → FileData → Fs
  | [], p, fd => [(p, fd)]
  | (q, g) :: rest, p, fd =>
    if q = p then (q, fd) :: rest else (q, g) :: fsSet rest p fd

def fsRemove : Fs → Path → Fs
  | [], _ => []
  | (q, g) :: rest, p => if q = p then rest else (q, g) :: fsRemove rest p

/-- file_hash from the source: the content digest of a readable file, and
the empty string when opening or reading raises. The digest function itself
is an abstract parameter: no claim depends on its definition, only on
equality of digests. -/
def file_hash (digest : List Nat → List Char) (fs : Fs) (p : Path) :
    List Char :=
  match fsGet fs p with
  | some fd => if fd.readable then digest fd.bytes else []
  | none => []

/-- os.path.splitext restricted to a bare file name: split at the last dot,
unless every character before that dot is itself a dot. -/
def splitext (name : List Char) : List Char × List Char :=
  if '.' ∈ name then
    let d := name.length - 1 - name.reverse.indexOf '.'
    if (name.take d).any (fun c => c ≠ '.') then (name.take d, name.drop d)
    else (name, [])
  else (name, [])

/-- The f-string candidate of unique_dest: base_i ext. -/
def candName (base ext : List Char) (i : Nat) : List Char :=
  base ++ '_' :: (Nat.repr i).toList ++ ext

/-- The while loop of unique_dest, with enough fuel to scan past every
existing file; the loop re-checks existence for each candidate. -/
def uniqueDestLoop (exs : Path → Bool) (destDir : Path) (base ext : List Char) :
    Nat → Nat → Path
  | i, 0 => destDir ++ [candName base ext i]
  | i, fuel + 1 =>
    let cand := destDir ++ [candName base ext i]
    if exs cand then uniqueDestLoop exs destDir base ext (i + 1) fuel else cand

/-- unique_dest from the source: the destination name itself when no file
exists there, else the first base_1, base_2, ... not existing on disk. Only
on-disk existence is consulted: there is no record of names claimed by other
in-flight renames of the same run. -/
def unique_dest (fs : Fs) (destDir : Path) (name : List Char) : Path :=
  let be := splitext name
  let cand := destDir ++ [name]
  if (fsGet fs cand).isSome then
    uniqueDestLoop (fun p => (fsGet fs p).isSome) destDir be.1 be.2 1
      (fs.length + 1)
  else cand

inductive MsgKind
  | skipSameContent
  | skipDuplicateName
  | skipUser
  | processed
  | failure
deriving DecidableEq

/-- One status event of the progress stream (timing fields are outside the
model). -/
structure Event where
  done : Nat
  total : Nat
  kind : MsgKind
deriving DecidableEq

/-- The rate-limit test of the worker loop: the first ten completions, every
1 percent of total (at least every completion when total is below 100), and
the final completion. -/
def rateCond (done total : Nat) : Bool :=
  decide (done ≤ 10) || done % (max 1 (total / 100)) == 0 || done == total

/-- The response of the conflict prompt under the ask policy. -/
inductive AskResp
  | rename
  | skipFile
  | cancel
deriving DecidableEq

/-- Mutable state of one run: file system, stop flag, shared counters and
the skipped and error lists. -/
structure RunState where
  fs : Fs
  stop : Bool
  done : Nat
  success : Nat
  skipped : Nat
  failed : Nat
  skippedList : List Path
  errors : List Path
deriving DecidableEq

/-- Record one skipped file and emit a rate-limited status event. -/
def skipStep (total : Nat) (st : RunState) (src : Path) (k : MsgKind) :
    RunState × List Event :=
  let st2 :=
    { st with
      skipped := st.skipped + 1
      done := st.done + 1
      skippedList := st.skippedList ++ [src] }
  (st2, if rateCond st2.done total then [⟨st2.done, total, k⟩] else [])

/-- Perform the copy or move, or record a failure when the operation raises
(source vanished, or the I/O oracle reports an error). A successful
completion always emits a status event; a failure emits rate-limited. -/
def performStep (total : Nat) (action : FileAction) (ioError : Bool)
    (st : RunState) (src dst : Path) : RunState × List Event :=
  match fsGet st.fs src with
  | none =>
    let st2 :=
      { st with
        failed := st.failed + 1
        done := st.done + 1
        errors := st.errors ++ [src] }
    (st2, if rateCond st2.done total then [⟨st2.done, total, MsgKind.failure⟩]
          else [])
  | some fd =>
    if ioError then
      let st2 :=
        { st with
          failed := st.failed + 1
          done := st.done + 1
          errors := st.errors ++ [src] }
      (st2, if rateCond st2.done total then
              [⟨st2.done, total, MsgKind.failure⟩]
            else [])
    else
      let fs2 :=
        if action = FileAction.move then fsSet (fsRemove st.fs src) dst fd
        else fsSet st.fs dst fd
      let st2 :=
        { st with
          fs := fs2
          success := st.success + 1
          done := st.done + 1 }
      (st2, [⟨st2.done, total, MsgKind.processed⟩])

/-- One iteration of the worker loop (the process closure of _worker_sort):
return immediately when the stop flag is set; otherwise compute the
destination; on a collision, hash-compare when enabled, then apply the
duplicate policy; finally copy or move. The conflict-prompt response and
whether the file operation raises are per-file oracles. -/
def process (digest : List Nat → List Char) (cfg : Config) (total : Nat)
    (ask : AskResp) (ioError : Bool) (st : RunState) (m : Meta) :
    RunState × List Event :=
  if st.stop then (st, [])
  else
    let src := m.path
    let outDir := targetDirFor cfg m
    let name := src.getLastD []
    let dst := outDir ++ [name]
    if (fsGet st.fs dst).isSome then
      if cfg.skipHash &&
          (file_hash digest st.fs src == file_hash digest st.fs dst) then
        skipStep total st src MsgKind.skipSameContent
      else
        match cfg.policy with
        | DupPolicy.rename =>
          performStep total cfg.action ioError st src
            (unique_dest st.fs outDir name)
        | DupPolicy.skipDup => skipStep total st src MsgKind.skipDuplicateName
        | DupPolicy.ask =>
          match ask with
          | AskResp.cancel => ({ st with stop := true }, [])
          | AskResp.skipFile => skipStep total st src MsgKind.skipUser
          | AskResp.rename =>
            performStep total cfg.action ioError st src
              (unique_dest st.fs outDir name)
    else performStep total cfg.action ioError st src dst

/-! Worker-count override (C8). -/

/-- The effective thread count computed and displayed by scan_preview. -/
def scanPreviewEffWorkers (policy : DupPolicy) (configured : Int) : Int :=
  let eff := max 1 configured
  if policy = DupPolicy.ask then 1 else eff

/-- The worker count used by _worker_sort: clamp to at least one, then force
one when the policy is ask and the clamp left more than one. -/
def workerSortWorkers (policy : DupPolicy) (configured : Int) : Int :=
  let w := max 1 configured
  if policy = DupPolicy.ask ∧ w > 1 then 1 else w

/-- C8: with the ask policy the execution phase runs with exactly one worker
whatever the configured count, the effective thread count scan_preview shows
the operator agrees with it, and every other policy uses the configured
count clamped to at least one. -/
theorem C8_ask_forces_single_worker (policy : DupPolicy) (configured : Int) :
    workerSortWorkers policy configured =
      scanPreviewEffWorkers policy configured ∧
    (policy = DupPolicy.ask → workerSortWorkers policy configured = 1) ∧
    (policy ≠ DupPolicy.ask →
      workerSortWorkers policy configured = max 1 configured) := by
  unfold workerSortWorkers scanPreviewEffWorkers
  rcases policy <;> simp

theorem C8_witness :
    workerSortWorkers DupPolicy.ask 8 = 1 ∧
    workerSortWorkers DupPolicy.ask 8 = scanPreviewEffWorkers DupPolicy.ask 8 :=
  ⟨(C8_ask_forces_single_worker DupPolicy.ask 8).2.1 rfl,
   (C8_ask_forces_single_worker DupPolicy.ask 8).1⟩

/-! Rename-collision resolution within one run (C2). -/

/-- Two same-named sources under the rename policy, resolved by two workers
whose unique_dest calls both run against the same on-disk state before
either copy lands — the schedule the execution thread pool permits, since
unique_dest consults only on-disk existence. -/
def racyRenamePair (fs : Fs) (destDir : Path) (name : List Char) :
    Path × Path :=
  (unique_dest fs destDir name, unique_dest fs destDir name)

/-- The same two renames under the sequential schedule: the first worker's
copy lands on disk before the second unique_dest runs. -/
def seqRenamePair (fs : Fs) (destDir : Path) (name : List Char)
    (fd : FileData) : Path × Path :=
  let d1 := unique_dest fs destDir name
  (d1, unique_dest (fsSet fs d1 fd) destDir name)

def imgJpg : List Char := ['I', 'M', 'G', '.', 'j', 'p', 'g']

def img1Jpg : List Char := ['I', 'M', 'G', '_', '1', '.', 'j', 'p', 'g']

def img2Jpg : List Char := ['I', 'M', 'G', '_', '2', '.', 'j', 'p', 'g']

def exDestDir : Path := [['d'], ['c']]

def exFileData : FileData := ⟨[0], true⟩

/-- A destination directory already holding IMG.jpg. -/
def exConflictFs : Fs := [(exDestDir ++ [imgJpg], exFileData)]

/-- C2: with IMG.jpg already on disk and two sources named IMG.jpg headed to
the same directory, the racy schedule hands both workers IMG_1.jpg — the
same final path, because unique_dest keeps no record of names claimed but
not yet written — whereas the sequential schedule produces the distinct
IMG_1.jpg and IMG_2.jpg that the claim requires for every schedule. -/
theorem C2_rename_race_same_destination :
    racyRenamePair exConflictFs exDestDir imgJpg =
      (exDestDir ++ [img1Jpg], exDestDir ++ [img1Jpg]) ∧
    seqRenamePair exConflictFs exDestDir imgJpg exFileData =
      (exDestDir ++ [img1Jpg], exDestDir ++ [img2Jpg]) ∧
    img1Jpg ≠ img2Jpg := by decide

/-! Hash-based duplicate skip (C9, C10). -/

/-- Shared fact: when the destination exists, hash-skip is enabled and the
two digests compare equal, process takes the identical-content skip branch:
counters move to skipped, the source joins the skipped list, the event (if
rate-limited in) reports the skip, and the file system is untouched. -/
theorem process_hash_skip_eq (digest : List Nat → List Char) (cfg : Config)
    (total : Nat) (ask : AskResp) (ioError : Bool) (st : RunState) (m : Meta)
    (hstop : st.stop = false)
    (hdst : (fsGet st.fs
      (targetDirFor cfg m ++ [m.path.getLastD []])).isSome = true)
    (hsh : cfg.skipHash = true)
    (hhash : file_hash digest st.fs m.path =
      file_hash digest st.fs (targetDirFor cfg m ++ [m.path.getLastD []])) :
    process digest cfg total ask ioError st m =
      ({ st with
          skipped := st.skipped + 1
          done := st.done + 1
          skippedList := st.skippedList ++ [m.path] },
        if rateCond (st.done + 1) total then
          [⟨st.done + 1, total, MsgKind.skipSameContent⟩]
        else []) := by
  have hb : (file_hash digest st.fs m.path ==
      file_hash digest st.fs
        (targetDirFor cfg m ++ [m.path.getLastD []])) = true :=
    beq_iff_eq.mpr hhash
  simp only [List.getLastD_eq_getLast?] at hdst hhash hb
  simp [process, skipStep, hstop, hdst, hsh, hb, hhash]

/-- C9: with hash-based skip enabled, a source whose destination already
exists with an equal content digest is counted as skipped with reason
identical content; the configured duplicate policy, the prompt response and
the I/O outcome are never consulted; and the file system — hence the
pre-existing destination file — is unchanged. -/
theorem C9_hash_skip_bypasses_policy (digest : List Nat → List Char)
    (cfg : Config) (total : Nat) (ask : AskResp) (ioError : Bool)
    (st : RunState) (m : Meta)
    (hstop : st.stop = false)
    (hdst : (fsGet st.fs
      (targetDirFor cfg m ++ [m.path.getLastD []])).isSome = true)
    (hsh : cfg.skipHash = true)
    (hhash : file_hash digest st.fs m.path =
      file_hash digest st.fs (targetDirFor cfg m ++ [m.path.getLastD []])) :
    process digest cfg total ask ioError st m =
      ({ st with
          skipped := st.skipped + 1
          done := st.done + 1
          skippedList := st.skippedList ++ [m.path] },
        if rateCond (st.done + 1) total then
          [⟨st.done + 1, total, MsgKind.skipSameContent⟩]
        else []) ∧
    (process digest cfg total ask ioError st m).1.fs = st.fs ∧
    (∀ pol ask2 io2,
      process digest { cfg with policy := pol } total ask2 io2 st m =
        process digest cfg total ask ioError st m) := by
  have hmain := process_hash_skip_eq digest cfg total ask ioError st m
    hstop hdst hsh hhash
  refine ⟨hmain, by rw [hmain], fun pol ask2 io2 => ?_⟩
  have hmain2 := process_hash_skip_eq digest { cfg with policy := pol } total
    ask2 io2 st m hstop hdst hsh hhash
  rw [hmain, hmain2]

def exMetaHS : Meta := ⟨[['s']], 0, [], [], [], [], [], []⟩

def exCfgHS : Config := ⟨GroupBy.camera, Hier.deviceFirst, false,
  FileAction.copy, true, DupPolicy.rename, 1, []⟩

/-- The destination computed for exMetaHS under exCfgHS. -/
def exDstHS : Path := [unknownName, [], [], [], ['s']]

/-- A run state whose file system holds only the (unreadable) destination. -/
def exStHS : RunState := ⟨[(exDstHS, ⟨[1], false⟩)], false, 0, 0, 0, 0, [], []⟩

theorem C9_witness :
    exStHS.stop = false ∧
    (fsGet exStHS.fs
      (targetDirFor exCfgHS exMetaHS ++ [exMetaHS.path.getLastD []])).isSome =
        true ∧
    exCfgHS.skipHash = true ∧
    file_hash (fun _ => []) exStHS.fs exMetaHS.path =
      file_hash (fun _ => []) exStHS.fs
        (targetDirFor exCfgHS exMetaHS ++ [exMetaHS.path.getLastD []]) ∧
    (process (fun _ => []) exCfgHS 3 AskResp.rename false
        exStHS exMetaHS).1.fs = exStHS.fs :=
  ⟨rfl, by decide, rfl, by decide,
    (C9_hash_skip_bypasses_policy (fun _ => []) exCfgHS 3 AskResp.rename false
      exStHS exMetaHS rfl (by decide) rfl (by decide)).2.1⟩

/-- C10: file_hash returns the empty string whenever reading raises, so with
hash-skip enabled an unreadable source and an unreadable existing
destination produce equal (empty) digests and the file is skipped as
identical content even though the two byte contents differ and were never
compared. -/
theorem C10_unreadable_hash_collision (digest : List Nat → List Char)
    (cfg : Config) (total : Nat) (ask : AskResp) (ioError : Bool)
    (st : RunState) (m : Meta) (fdS fdD : FileData)
    (hstop : st.stop = false)
    (hsrc : fsGet st.fs m.path = some fdS)
    (hsr : fdS.readable = false)
    (hdst : fsGet st.fs (targetDirFor cfg m ++ [m.path.getLastD []]) =
      some fdD)
    (hdr : fdD.readable = false)
    (hsh : cfg.skipHash = true)
    (hdiff : fdS.bytes ≠ fdD.bytes) :
    file_hash digest st.fs m.path = [] ∧
    file_hash digest st.fs (targetDirFor cfg m ++ [m.path.getLastD []]) =
      [] ∧
    (process digest cfg total ask ioError st m).1.skipped = st.skipped + 1 ∧
    (process digest cfg total ask ioError st m).1.fs = st.fs := by
  have h1 : file_hash digest st.fs m.path = [] := by
    simp [file_hash, hsrc, hsr]
  have h2 : file_hash digest st.fs
      (targetDirFor cfg m ++ [m.path.getLastD []]) = [] := by
    unfold file_hash
    rw [hdst]
    simp [hdr]
  have hmain := process_hash_skip_eq digest cfg total ask ioError st m
    hstop (by rw [hdst]; rfl) hsh (h1.trans h2.symm)
  exact ⟨h1, h2, by rw [hmain], by rw [hmain]⟩

/-- A source file that exists on disk but cannot be read, with contents
different from the unreadable destination. -/
def exStC10 : RunState :=
  ⟨[(exDstHS, ⟨[1], false⟩), ([['s']], ⟨[2], false⟩)],
    false, 0, 0, 0, 0, [], []⟩

theorem C10_witness :
    fsGet exStC10.fs exMetaHS.path = some ⟨[2], false⟩ ∧
    fsGet exStC10.fs
      (targetDirFor exCfgHS exMetaHS ++ [exMetaHS.path.getLastD []]) =
        some ⟨[1], false⟩ ∧
    ([2] : List Nat) ≠ [1] ∧
    file_hash (fun b => b.map Char.ofNat) exStC10.fs exMetaHS.path = [] ∧
    (process (fun b => b.map Char.ofNat) exCfgHS 3 AskResp.rename false
        exStC10 exMetaHS).1.skipped = exStC10.skipped + 1 :=
  ⟨by decide, by decide, by decide,
    (C10_unreadable_hash_collision (fun b => b.map Char.ofNat) exCfgHS 3
      AskResp.rename false exStC10 exMetaHS ⟨[2], false⟩ ⟨[1], false⟩
      rfl (by decide) rfl (by decide) rfl rfl (by decide)).1,
    (C10_unreadable_hash_collision (fun b => b.map Char.ofNat) exCfgHS 3
      AskResp.rename false exStC10 exMetaHS ⟨[2], false⟩ ⟨[1], false⟩
      rfl (by decide) rfl (by decide) rfl rfl (by decide)).2.2.1⟩

/-! Progress-event rate limiting (C3). -/

theorem skipStep_done (total : Nat) (st : RunState) (src : Path)
    (k : MsgKind) : (skipStep total st src k).1.done = st.done + 1 := rfl

theorem skipStep_success (total : Nat) (st : RunState) (src : Path)
    (k : MsgKind) : (skipStep total st src k).1.success = st.success := rfl

theorem skipStep_events (total : Nat) (st : RunState) (src : Path)
    (k : MsgKind) :
    ∀ ev ∈ (skipStep total st src k).2,
      ev.done = st.done + 1 ∧ ev.total = total := by
  intro ev hev
  unfold skipStep at hev
  rcases h : rateCond (st.done + 1) total
  · simp [h] at hev
  · simp [h] at hev
    simp [hev]

theorem skipStep_emits (total : Nat) (st : RunState) (src : Path)
    (k : MsgKind) :
    (skipStep total st src k).2 ≠ [] ↔
      rateCond (st.done + 1) total = true := by
  unfold skipStep
  rcases h : rateCond (st.done + 1) total
  · simp [h]
  · simp [h]

theorem performStep_done (total : Nat) (action : FileAction) (ioError : Bool)
    (st : RunState) (src dst : Path) :
    (performStep total action ioError st src dst).1.done = st.done + 1 := by
  unfold performStep
  rcases hg : fsGet st.fs src with _ | fd
  · rfl
  · rcases ioError <;> simp

theorem performStep_events (total : Nat) (action : FileAction)
    (ioError : Bool) (st : RunState) (src dst : Path) :
    ∀ ev ∈ (performStep total action ioError st src dst).2,
      ev.done = st.done + 1 ∧ ev.total = total := by
  intro ev hev
  unfold performStep at hev
  rcases hg : fsGet st.fs src with _ | fd <;> rw [hg] at hev
  · rcases h : rateCond (st.done + 1) total <;> simp [h] at hev
    simp [hev]
  · rcases ioError
    · simp at hev
      simp [hev]
    · rcases h : rateCond (st.done + 1) total <;> simp [h] at hev
      simp [hev]

theorem performStep_emits (total : Nat) (action : FileAction)
    (ioError : Bool) (st : RunState) (src dst : Path) :
    (performStep total action ioError st src dst).2 ≠ [] ↔
      ((performStep total action ioError st src dst).1.success =
          st.success + 1 ∨
        rateCond (st.done + 1) total = true) := by
  unfold performStep
  rcases hg : fsGet st.fs src with _ | fd
  · rcases h : rateCond (st.done + 1) total <;> simp [h]
  · rcases ioError
    · simp
    · rcases h : rateCond (st.done + 1) total <;> simp [h]

theorem performStep_success_cases (total : Nat) (action : FileAction)
    (ioError : Bool) (st : RunState) (src dst : Path) :
    (performStep total action ioError st src dst).1.success = st.success ∨
    (performStep total action ioError st src dst).1.success =
      st.success + 1 := by
  unfold performStep
  rcases hg : fsGet st.fs src with _ | fd
  · exact Or.inl rfl
  · rcases ioError <;> simp

theorem skipStep_len (total : Nat) (st : RunState) (src : Path)
    (k : MsgKind) :
    (skipStep total st src k).2 = [] ∨
    ∃ ev, (skipStep total st src k).2 = [ev] := by
  unfold skipStep
  rcases h : rateCond (st.done + 1) total
  · exact Or.inl (by simp [h])
  · exact Or.inr ⟨⟨st.done + 1, total, k⟩, by simp [h]⟩

theorem performStep_len (total : Nat) (action : FileAction) (ioError : Bool)
    (st : RunState) (src dst : Path) :
    (performStep total action ioError st src dst).2 = [] ∨
    ∃ ev, (performStep total action ioError st src dst).2 = [ev] := by
  unfold performStep
  rcases hg : fsGet st.fs src with _ | fd
  · rcases h : rateCond (st.done + 1) total
    · exact Or.inl (by simp [h])
    · exact Or.inr ⟨⟨st.done + 1, total, MsgKind.failure⟩, by simp [h]⟩
  · rcases ioError
    · exact Or.inr ⟨⟨st.done + 1, total, MsgKind.processed⟩, by simp⟩
    · rcases h : rateCond (st.done + 1) total
      · exact Or.inl (by simp [h])
      · exact Or.inr ⟨⟨st.done + 1, total, MsgKind.failure⟩, by simp [h]⟩

def exStC3 : RunState :=
  ⟨[([['s']], ⟨[1], true⟩)], false, 10, 10, 0, 0, [], []⟩

/-- C3: the claim states a progress event is emitted only for the first ten
completions, at 1 percent multiples, or at the end; but the success path of
the worker emits unconditionally: completion 11 of 1000 is none of the
three cases, yet its successful copy emits a status event. -/
theorem C3_counterexample :
    (process (fun _ => []) exCfgHS 1000 AskResp.rename false
        exStC3 exMetaHS).2 = [⟨11, 1000, MsgKind.processed⟩] ∧
    rateCond 11 1000 = false := by decide

/-- C3 (amended): for a completed file, a progress event is emitted if and
only if the completion was a success — the success path always emits — or
the rate condition (first ten, every 1 percent of total, final completion)
holds at the new count, which governs the skipped and failed paths. Also
proven: one iteration records at most one completion, a stopped or
cancelled iteration completes nothing and emits nothing, every emitted
event reports the new count, and the emitted event list is empty or a
single event. -/
theorem C3_progress_emission (digest : List Nat → List Char) (cfg : Config)
    (total : Nat) (ask : AskResp) (ioError : Bool) (st : RunState) (m : Meta)
    (r : RunState × List Event)
    (hr : r = process digest cfg total ask ioError st m) :
    (r.1.done = st.done ∨ r.1.done = st.done + 1) ∧
    (r.1.done = st.done → r.2 = []) ∧
    (∀ ev ∈ r.2, ev.done = st.done + 1 ∧ ev.total = total) ∧
    (r.1.done = st.done + 1 →
      (r.2 ≠ [] ↔
        (r.1.success = st.success + 1 ∨
          rateCond (st.done + 1) total = true))) ∧
    (r.2 = [] ∨ ∃ ev, r.2 = [ev]) := by
  have hskip : ∀ k, r = skipStep total st m.path k →
      (r.1.done = st.done ∨ r.1.done = st.done + 1) ∧
      (r.1.done = st.done → r.2 = []) ∧
      (∀ ev ∈ r.2, ev.done = st.done + 1 ∧ ev.total = total) ∧
      (r.1.done = st.done + 1 →
        (r.2 ≠ [] ↔
          (r.1.success = st.success + 1 ∨
            rateCond (st.done + 1) total = true))) ∧
      (r.2 = [] ∨ ∃ ev, r.2 = [ev]) := by
    intro k hk
    subst hk
    refine ⟨Or.inr (skipStep_done total st m.path k), ?_,
      skipStep_events total st m.path k, ?_, skipStep_len total st m.path k⟩
    · intro h
      rw [skipStep_done total st m.path k] at h
      omega
    · intro _
      rw [skipStep_emits total st m.path k, skipStep_success total st m.path k]
      constructor
      · exact fun h => Or.inr h
      · intro h
        rcases h with h | h
        · omega
        · exact h
  have hperf : ∀ dst, r = performStep total cfg.action ioError st m.path dst →
      (r.1.done = st.done ∨ r.1.done = st.done + 1) ∧
      (r.1.done = st.done → r.2 = []) ∧
      (∀ ev ∈ r.2, ev.done = st.done + 1 ∧ ev.total = total) ∧
      (r.1.done = st.done + 1 →
        (r.2 ≠ [] ↔
          (r.1.success = st.success + 1 ∨
            rateCond (st.done + 1) total = true))) ∧
      (r.2 = [] ∨ ∃ ev, r.2 = [ev]) := by
    intro dst hk
    subst hk
    refine ⟨Or.inr (performStep_done total cfg.action ioError st m.path dst),
      ?_, performStep_events total cfg.action ioError st m.path dst,
      fun _ => performStep_emits total cfg.action ioError st m.path dst,
      performStep_len total cfg.action ioError st m.path dst⟩
    intro h
    rw [performStep_done total cfg.action ioError st m.path dst] at h
    omega
  have hidle : ∀ st2 : RunState, st2.done = st.done → r = (st2, []) →
      (r.1.done = st.done ∨ r.1.done = st.done + 1) ∧
      (r.1.done = st.done → r.2 = []) ∧
      (∀ ev ∈ r.2, ev.done = st.done + 1 ∧ ev.total = total) ∧
      (r.1.done = st.done + 1 →
        (r.2 ≠ [] ↔
          (r.1.success = st.success + 1 ∨
            rateCond (st.done + 1) total = true))) ∧
      (r.2 = [] ∨ ∃ ev, r.2 = [ev]) := by
    intro st2 hd hk
    subst hk
    refine ⟨Or.inl hd, fun _ => rfl, by simp, ?_, Or.inl rfl⟩
    intro h
    simp only [hd] at h
    omega
  unfold process at hr
  by_cases hstop : st.stop
  · rw [if_pos hstop] at hr
    exact hidle st rfl hr
  · rw [if_neg hstop] at hr
    simp only [] at hr
    by_cases hdst : (fsGet st.fs
        (targetDirFor cfg m ++ [m.path.getLastD []])).isSome = true
    · rw [if_pos hdst] at hr
      by_cases hh : (cfg.skipHash && (file_hash digest st.fs m.path ==
          file_hash digest st.fs
            (targetDirFor cfg m ++ [m.path.getLastD []]))) = true
      · rw [if_pos hh] at hr
        exact hskip MsgKind.skipSameContent hr
      · rw [if_neg hh] at hr
        rcases hpol : cfg.policy with _ | _ | _ <;> rw [hpol] at hr
        · exact hperf _ hr
        · exact hskip MsgKind.skipDuplicateName hr
        · rcases hask : ask with _ | _ | _ <;> rw [hask] at hr
          · exact hperf _ hr
          · exact hskip MsgKind.skipUser hr
          · exact hidle { st with stop := true } rfl hr
    · rw [if_neg hdst] at hr
      exact hperf _ hr

def exRC3 : RunState × List Event :=
  process (fun _ => []) exCfgHS 1000 AskResp.rename false exStC3 exMetaHS

theorem C3_witness :
    exRC3 = process (fun _ => []) exCfgHS 1000 AskResp.rename false
      exStC3 exMetaHS ∧
    exRC3.1.done = exStC3.done + 1 ∧
    (exRC3.2 ≠ [] ↔
      (exRC3.1.success = exStC3.success + 1 ∨
        rateCond (exStC3.done + 1) 1000 = true)) ∧
    (exRC3.2 = [] ∨ ∃ ev, exRC3.2 = [ev]) :=
  ⟨rfl, by decide,
    (C3_progress_emission (fun _ => []) exCfgHS 1000 AskResp.rename false
      exStC3 exMetaHS exRC3 rfl).2.2.2.1 (by decide),
    (C3_progress_emission (fun _ => []) exCfgHS 1000 AskResp.rename false
      exStC3 exMetaHS exRC3 rfl).2.2.2.2⟩

end SdToC
